import Mathlib

/-!
Verification of the espritc scanner.

The repository holds two variants of the same character-by-character
scanner: the fine-grained `Tokenizer` of `src/Tokenizer.ts` (a distinct
token kind per symbol, binary radix literals, line comments) and a coarse
variant embedded in `src/Token.ts` (shared bracket/operator/punctuation
kinds, block comments, octal and hexadecimal radixes, bigint suffixes,
and switch fall-through).  Both are embedded below: the fine variant as
total functions (its inner loops are bounded by the input length, so the
top loop is run with `source.length` fuel and proved to reach its natural
exit), the coarse variant with explicit fuel on its block-comment loop,
which can genuinely diverge.

Source text is a `List Char`; the JavaScript string primitives used by
the scanner (`charAt`, `slice`, `Number`, `BigInt`) are modelled first.
`Number` is modelled exactly over the rationals; the rounding of the
result to a 64-bit float is not modelled (no property below depends on a
rounded value), and `NaN` is modelled as `none`.
-/

/-- Model of JavaScript `string.charAt`: `none` models the empty string
returned for an out-of-range index. -/
def charAt (l : List Char) (i : Nat) : Option Char :=
  l.get? i

/-- Model of JavaScript `string.slice(a, b)` for `0 ≤ a ≤ b` (the only
way the scanner calls it); like `slice`, an end index past the end of the
string is clamped. -/
def jsSlice (l : List Char) (a b : Nat) : List Char :=
  (l.drop a).take (b - a)

/-- Numeric value of a single digit character, also for hexadecimal
letter digits. -/
def digitVal (c : Char) : Nat :=
  if c.isDigit then c.toNat - '0'.toNat else c.toLower.toNat - 'a'.toNat + 10

/-- Whether `c` is a valid digit in base `b` (2, 8, 10 or 16); for base 16
this is the regex `[0-9a-f]` case-insensitively. -/
def isRadixDigit (b : Nat) (c : Char) : Bool :=
  if b = 16 then c.isDigit || ('a' ≤ c.toLower && c.toLower ≤ 'f')
  else c.isDigit && digitVal c < b

/-- Value of a digit string in base `b` (most significant digit first). -/
def natOfDigitsBase (b : Nat) (l : List Char) : Nat :=
  l.foldl (fun a c => a * b + digitVal c) 0

/-- Parse a non-empty all-valid digit string in base `b`; `none` otherwise. -/
def radixNat (b : Nat) (l : List Char) : Option Nat :=
  if l ≠ [] ∧ l.all (isRadixDigit b) then some (natOfDigitsBase b l) else none

/-- Exponent part of a JavaScript numeric string: an optional sign and a
non-empty decimal digit run, applied to the mantissa `n / d` (the value
is assembled with integer arithmetic and one final `mkRat`, which the
kernel can evaluate). -/
def jsExpPart (n : ℤ) (d : ℕ) (l : List Char) : Option ℚ :=
  match l with
  | '+' :: ds =>
      if ds ≠ [] ∧ ds.all Char.isDigit then
        some (mkRat (n * 10 ^ natOfDigitsBase 10 ds) d)
      else none
  | '-' :: ds =>
      if ds ≠ [] ∧ ds.all Char.isDigit then
        some (mkRat n (d * 10 ^ natOfDigitsBase 10 ds))
      else none
  | ds =>
      if ds ≠ [] ∧ ds.all Char.isDigit then
        some (mkRat (n * 10 ^ natOfDigitsBase 10 ds) d)
      else none

/-- Decimal part of the `Number` model: digits, an optional fraction, an
optional exponent, with at least one digit around the decimal point. -/
def jsNumberDec (l : List Char) : Option ℚ :=
  let intD := l.takeWhile Char.isDigit
  let rest1 := l.drop intD.length
  match rest1 with
  | [] => if intD = [] then none else some (mkRat (natOfDigitsBase 10 intD) 1)
  | '.' :: rest2 =>
      let fracD := rest2.takeWhile Char.isDigit
      let rest3 := rest2.drop fracD.length
      if intD = [] ∧ fracD = [] then none
      else
        let n : ℤ := natOfDigitsBase 10 (intD ++ fracD)
        let d : ℕ := 10 ^ fracD.length
        match rest3 with
        | [] => some (mkRat n d)
        | e :: rest4 => if e.toLower = 'e' then jsExpPart n d rest4 else none
  | e :: rest2 =>
      if e.toLower = 'e' then
        if intD = [] then none else jsExpPart (natOfDigitsBase 10 intD) 1 rest2
      else none

/-- Model of JavaScript `Number(s)` on the unsigned, whitespace-free
lexemes the scanner produces: radix forms `0b`/`0o`/`0x`
(case-insensitive) and decimal forms; `none` models `NaN`; the empty
string converts to `0`.  The exact rational value is kept (float rounding
is not modelled). -/
def jsNumber (l : List Char) : Option ℚ :=
  match l with
  | [] => some 0
  | '0' :: m :: rest =>
      if m.toLower = 'b' then (radixNat 2 rest).map (fun n => mkRat n 1)
      else if m.toLower = 'o' then (radixNat 8 rest).map (fun n => mkRat n 1)
      else if m.toLower = 'x' then (radixNat 16 rest).map (fun n => mkRat n 1)
      else jsNumberDec l
  | _ => jsNumberDec l

/-- Model of JavaScript `BigInt(s)` on the same lexeme shapes; `none`
models the thrown `SyntaxError` for a non-integer string. -/
def jsBigInt (l : List Char) : Option ℤ :=
  match l with
  | [] => some 0
  | '0' :: m :: rest =>
      if m.toLower = 'b' then (radixNat 2 rest).map Int.ofNat
      else if m.toLower = 'o' then (radixNat 8 rest).map Int.ofNat
      else if m.toLower = 'x' then (radixNat 16 rest).map Int.ofNat
      else if l.all Char.isDigit then some (natOfDigitsBase 10 l) else none
  | _ => if l.all Char.isDigit then some (natOfDigitsBase 10 l) else none

/-- Format tag of a numeric literal (the `kind` fields of the source). -/
inductive NumberKind
  | decimal
  | exponential
  | binary
  | octal
  | hexadecimal
  deriving DecidableEq

/-- Fine-grained token kinds of `src/Token.ts` (the `TokenADT` type); a
numeric token carries the `Number`-decoded value and a format tag, a
string token carries the decoded text between the quotes. -/
inductive TokenType
  | leftParen
  | rightParen
  | leftBrace
  | rightBrace
  | comma
  | dot
  | minus
  | plus
  | semicolon
  | star
  | slash
  | eof
  | bangEqual
  | bang
  | equalEqual
  | equal
  | lessEqual
  | less
  | greaterEqual
  | greater
  | number (literal : Option ℚ) (kind : NumberKind)
  | string (literal : List Char)
  deriving DecidableEq

/-- Payload of a coarse numeric token: either a `Number`-decoded value or
a `BigInt`-decoded value (when the `n` suffix was matched). -/
inductive JsNumValue
  | num (v : Option ℚ)
  | big (v : Option ℤ)
  deriving DecidableEq

/-- Token kinds of the coarse scanner variant embedded in `src/Token.ts`. -/
inductive CTokenType
  | bracket
  | operator
  | punctuation
  | eof
  | number (literal : JsNumValue) (kind : NumberKind) (bigInt : Bool)
  | string (literal : List Char)
  deriving DecidableEq

/-- A produced token: its kind (the `_type` and payload fields of the
source object), the exact source substring `lexeme`, and the `line`
counter value at emission. -/
structure Tok (κ : Type) where
  type : κ
  lexeme : List Char
  line : Nat
  deriving DecidableEq

/-- Diagnostics reported through `console.error`, in order of emission.
`unexpectedCharacter none` models the unreachable report for the empty
string `advance` returns past the end of input. -/
inductive ScanError
  | unexpectedCharacter (c : Option Char)
  | binaryDigitExpected
  | octalDigitExpected
  | hexadecimalDigitExpected
  | unterminatedString
  deriving DecidableEq

/-- The scanner's internal state: the owned source, the tokens and
diagnostics produced so far, the `start`/`current` cursor pair and the
running `line` counter. -/
structure ScanState (κ : Type) where
  source : List Char
  tokens : List (Tok κ)
  errors : List ScanError
  start : Nat
  current : Nat
  line : Nat
  deriving DecidableEq

variable {κ : Type}

/-- The loop guard `reachedEOF`: `current > source.length - 1`, taken
over the integers as in JavaScript. -/
def reachedEOF (s : ScanState κ) : Bool :=
  (s.current : Int) > (s.source.length : Int) - 1

/-- The state change of `advance(k)`: `current += k`. -/
def advanceBy (s : ScanState κ) (k : Nat) : ScanState κ :=
  { s with current := s.current + k }

/-- The character `advance()` returns after moving the cursor by `k`. -/
def advancedChar (s : ScanState κ) (k : Nat) : Option Char :=
  charAt s.source (s.current + k - 1)

/-- The `peek` helper: the character at `current`, or end of input. -/
def peek (s : ScanState κ) : Option Char :=
  if reachedEOF s then none else charAt s.source s.current

/-- The `peekNext(k)` helper; note the guard tests `current + 1` against
the length even when peeking `k` characters ahead, exactly as the source
does. -/
def peekNext (s : ScanState κ) (k : Nat) : Option Char :=
  if s.current + 1 ≥ s.source.length then none else charAt s.source (s.current + k)

/-- The `match(expected)` helper: consume the next character exactly when
it equals `expected`. -/
def matchChar (s : ScanState κ) (expected : Char) : ScanState κ × Bool :=
  if reachedEOF s then (s, false)
  else if charAt s.source s.current ≠ some expected then (s, false)
  else (advanceBy s 1, true)

/-- The coarse variant's `match(expected, true)`: compare after lowering
the next character's case. -/
def matchCharLower (s : ScanState κ) (expected : Char) : ScanState κ × Bool :=
  if reachedEOF s then (s, false)
  else if (charAt s.source s.current).map Char.toLower ≠ some expected then (s, false)
  else (advanceBy s 1, true)

/-- `addToken`: append a token whose lexeme is `source.slice(start,
current)` and whose line is the current line counter. -/
def addToken (s : ScanState κ) (t : κ) : ScanState κ :=
  { s with tokens := s.tokens ++ [⟨t, jsSlice s.source s.start s.current, s.line⟩] }

/-- Append one diagnostic. -/
def addError (s : ScanState κ) (e : ScanError) : ScanState κ :=
  { s with errors := s.errors ++ [e] }

/-- Character predicates of the source, lifted to `Option Char` so that
the empty string returned at end of input tests false, as the regexes do. -/
def isDigitOpt (c : Option Char) : Bool :=
  match c with
  | some ch => ch.isDigit
  | none => false

/-- The `isBinaryDigit` helper on `Option Char`. -/
def isBinaryDigitOpt (c : Option Char) : Bool :=
  match c with
  | some ch => ch = '0' || ch = '1'
  | none => false

/-- The coarse `isOctalDigit` helper on `Option Char`. -/
def isOctalDigitOpt (c : Option Char) : Bool :=
  match c with
  | some ch => ch.isDigit && digitVal ch < 8
  | none => false

/-- The coarse `isHexadecimalDigit` helper on `Option Char`. -/
def isHexadecimalDigitOpt (c : Option Char) : Bool :=
  match c with
  | some ch => ch.isDigit || ('a' ≤ ch.toLower && ch.toLower ≤ 'f')
  | none => false

/-- Fuelled body of `while (p(peek())) advance()`.  Every predicate the
scanner uses rejects end of input, so the loop consumes at most
`source.length - current` characters; each wrapper below passes exactly
that much fuel, which is proved sufficient. -/
def readWhileF (p : Option Char → Bool) : Nat → ScanState κ → ScanState κ
  | 0, s => s
  | fuel + 1, s => if p (peek s) then readWhileF p fuel (advanceBy s 1) else s

/-- The `readWhile`/inline digit loops of the source. -/
def readWhileP (p : Option Char → Bool) (s : ScanState κ) : ScanState κ :=
  readWhileF p (s.source.length - s.current) s

/-- Fuelled body of the line-comment loop
`while (peek() != newline and not reachedEOF) advance()`. -/
def skipLineCommentF : Nat → ScanState κ → ScanState κ
  | 0, s => s
  | fuel + 1, s =>
      if peek s ≠ some '\n' ∧ reachedEOF s = false then
        skipLineCommentF fuel (advanceBy s 1)
      else s

/-- The line-comment loop, with its sufficient fuel. -/
def skipLineComment (s : ScanState κ) : ScanState κ :=
  skipLineCommentF (s.source.length - s.current) s

/-- Fuelled body of the string loop: consume until a closing quote or end
of input, incrementing `line` on each consumed line terminator. -/
def stringBodyF : Nat → ScanState κ → ScanState κ
  | 0, s => s
  | fuel + 1, s =>
      if peek s ≠ some '"' ∧ reachedEOF s = false then
        stringBodyF fuel
          (advanceBy (if peek s = some '\n' then { s with line := s.line + 1 } else s) 1)
      else s

/-- The string-literal loop, with its sufficient fuel. -/
def stringBody (s : ScanState κ) : ScanState κ :=
  stringBodyF (s.source.length - s.current) s

/-- The fine variant's `string()`: run the body loop; on end of input
report an unterminated string and emit nothing, otherwise consume the
closing quote and emit a string token whose payload is
`source.slice(start + 1, current - 1)`. -/
def scanString (s : ScanState TokenType) : ScanState TokenType :=
  let s1 := stringBody s
  if reachedEOF s1 then addError s1 ScanError.unterminatedString
  else
    let s2 := advanceBy s1 1
    addToken s2 (TokenType.string (jsSlice s2.source (s2.start + 1) (s2.current - 1)))

/-- Fraction step of the fine variant's `number()`: a `.` is consumed
(together with a further maximal digit run) only when `peek` sees the dot
and `peekNext` sees a decimal digit. -/
def numberFrac (s : ScanState TokenType) : ScanState TokenType :=
  if peek s = some '.' ∧ isDigitOpt (peekNext s 1) = true then
    readWhileP isDigitOpt (advanceBy s 1)
  else s

/-- Exponent step of the fine variant's `number()`: an `e`/`E` is
consumed only together with either an immediately following digit run or
a `-` immediately followed by a digit run. -/
def numberExp (s : ScanState TokenType) : ScanState TokenType :=
  if (peek s).map Char.toLower = some 'e' then
    if isDigitOpt (peekNext s 1) = true then
      readWhileP isDigitOpt (advanceBy s 1)
    else if peekNext s 1 = some '-' ∧ isDigitOpt (peekNext s 2) = true then
      readWhileP isDigitOpt (advanceBy s 2)
    else s
  else s

/-- The fine variant's `number()`: a maximal decimal digit run, then the
fraction and exponent steps; the literal is the `Number` decode of the
lexeme and the tag is exponential exactly when the lexeme contains
`e`/`E`. -/
def number (s : ScanState TokenType) : ScanState TokenType :=
  let s3 := numberExp (numberFrac (readWhileP isDigitOpt s))
  let lexeme := jsSlice s3.source s3.start s3.current
  let kind :=
    if lexeme.any (fun ch => ch.toLower = 'e') then NumberKind.exponential
    else NumberKind.decimal
  addToken s3 (TokenType.number (jsNumber lexeme) kind)

/-- The fine variant's `leadingZeroNumber()`: after a leading `0`, if the
next character is `b`/`B` then read binary digits when the character
after the marker is a binary digit, otherwise report a diagnostic without
consuming; either way a number token tagged binary is then emitted for
the consumed span.  Without the marker, fall back to `number()`. -/
def leadingZeroNumber (s : ScanState TokenType) : ScanState TokenType :=
  if (peek s).map Char.toLower = some 'b' then
    let s1 :=
      if isBinaryDigitOpt (peekNext s 1) = true then
        readWhileP isBinaryDigitOpt (advanceBy s 1)
      else addError s ScanError.binaryDigitExpected
    addToken s1 (TokenType.number (jsNumber (jsSlice s1.source s1.start s1.current))
      NumberKind.binary)
  else number s

/-- Dispatch of the fine variant's `scanToken()` on the consumed
character `c`; `s` is the state after the initial `advance()`.  The
source's `switch` has one self-contained arm per character, mirrored here
as a chain of character tests. -/
def scanTokenChar (s : ScanState TokenType) (c : Char) : ScanState TokenType :=
  if c = '(' then addToken s TokenType.leftParen
  else if c = ')' then addToken s TokenType.rightParen
  else if c = '{' then addToken s TokenType.leftBrace
  else if c = '}' then addToken s TokenType.rightBrace
  else if c = ',' then addToken s TokenType.comma
  else if c = '.' then addToken s TokenType.dot
  else if c = '-' then
    let r := matchChar s '-'
    if r.2 then skipLineComment r.1 else addToken r.1 TokenType.minus
  else if c = '+' then addToken s TokenType.plus
  else if c = ';' then addToken s TokenType.semicolon
  else if c = '*' then addToken s TokenType.star
  else if c = '/' then addToken s TokenType.slash
  else if c = '!' then
    let r := matchChar s '='
    addToken r.1 (if r.2 then TokenType.bangEqual else TokenType.bang)
  else if c = '=' then
    let r := matchChar s '='
    addToken r.1 (if r.2 then TokenType.equalEqual else TokenType.equal)
  else if c = '<' then
    let r := matchChar s '='
    addToken r.1 (if r.2 then TokenType.lessEqual else TokenType.less)
  else if c = '>' then
    let r := matchChar s '='
    addToken r.1 (if r.2 then TokenType.greaterEqual else TokenType.greater)
  else if c = ' ' then s
  else if c = '\r' then s
  else if c = '\t' then s
  else if c = '\n' then { s with line := s.line + 1 }
  else if c = '0' then leadingZeroNumber s
  else if c.isDigit then number s
  else if c = '"' then scanString s
  else addError s (ScanError.unexpectedCharacter (some c))

/-- The fine variant's `scanToken()`: consume one character and dispatch
on it.  When called past the end of input (which the scan loop never
does), `advance` returns the empty string and the switch falls to its
default arm. -/
def scanToken (s : ScanState TokenType) : ScanState TokenType :=
  match charAt s.source s.current with
  | some c => scanTokenChar (advanceBy s 1) c
  | none => addError (advanceBy s 1) (ScanError.unexpectedCharacter none)

/-- Fuelled main loop of `scanTokens()`: while the cursor has not passed
the last index, reset `start` to `current` and scan one token.  Each
iteration consumes at least one character, so `source.length` fuel always
reaches the natural exit (proved below). -/
def scanLoopF : Nat → ScanState TokenType → ScanState TokenType
  | 0, s => s
  | fuel + 1, s =>
      if reachedEOF s then s
      else scanLoopF fuel (scanToken { s with start := s.current })

/-- The scanner's initial state for a given source text. -/
def initState (src : List Char) : ScanState TokenType :=
  ⟨src, [], [], 0, 0, 0⟩

/-- The fine variant's public `scanTokens()`: run the loop to end of
input, then append the end-of-input sentinel with an empty lexeme and the
final line counter. -/
def scanTokens (src : List Char) : ScanState TokenType :=
  let s := scanLoopF src.length (initState src)
  { s with tokens := s.tokens ++ [⟨TokenType.eof, [], s.line⟩] }

/-- The coarse variant's `string()` (textually identical to the fine
variant's, but emitting a coarse string token). -/
def stringC (s : ScanState CTokenType) : ScanState CTokenType :=
  let s1 := stringBody s
  if reachedEOF s1 then addError s1 ScanError.unterminatedString
  else
    let s2 := advanceBy s1 1
    addToken s2 (CTokenType.string (jsSlice s2.source (s2.start + 1) (s2.current - 1)))

/-- The coarse variant's `number()`: note that its `.` and `e` tests use
`match`, which consumes the tested character even when the digit
lookahead then fails, and that the bigint test `match("n")` is followed
by one further unconditional `advance()`; the lexeme used for decoding is
sliced before the suffix test, while `addToken` re-slices up to the final
cursor. -/
def numberC (s : ScanState CTokenType) : ScanState CTokenType :=
  let s1 := readWhileP isDigitOpt s
  let r2 := matchChar s1 '.'
  let s3 :=
    if r2.2 = true ∧ isDigitOpt (peekNext r2.1 1) = true then
      readWhileP isDigitOpt (advanceBy r2.1 1)
    else r2.1
  let r4 := matchCharLower s3 'e'
  let s5 :=
    if r4.2 then
      if isDigitOpt (peekNext r4.1 1) = true then
        readWhileP isDigitOpt (advanceBy r4.1 1)
      else if peekNext r4.1 1 = some '-' ∧ isDigitOpt (peekNext r4.1 2) = true then
        readWhileP isDigitOpt (advanceBy r4.1 2)
      else r4.1
    else r4.1
  let lexeme := jsSlice s5.source s5.start s5.current
  let r6 := matchChar s5 'n'
  let s7 := if r6.2 then advanceBy r6.1 1 else r6.1
  if r6.2 then
    addToken s7 (CTokenType.number (JsNumValue.big (jsBigInt lexeme)) NumberKind.decimal true)
  else
    let kind :=
      if lexeme.any (fun ch => ch.toLower = 'e') then NumberKind.exponential
      else NumberKind.decimal
    addToken s7 (CTokenType.number (JsNumValue.num (jsNumber lexeme)) kind false)

/-- Tail of the coarse `leadingZeroNumber()` reached when one of the
radix markers matched: slice the lexeme, test the bigint suffix (again
with the extra `advance()`), pick the tag from the lexeme's second
character and emit the numeric token. -/
def leadingZeroTailC (s : ScanState CTokenType) : ScanState CTokenType :=
  let lexeme := jsSlice s.source s.start s.current
  let r := matchChar s 'n'
  let s2 := if r.2 then advanceBy r.1 1 else r.1
  let secondChar := (lexeme.map Char.toLower).get? 1
  let kind :=
    if secondChar = some 'b' then NumberKind.binary
    else if secondChar = some 'o' then NumberKind.octal
    else NumberKind.hexadecimal
  if r.2 then
    addToken s2 (CTokenType.number (JsNumValue.big (jsBigInt lexeme)) kind true)
  else
    addToken s2 (CTokenType.number (JsNumValue.num (jsNumber lexeme)) kind false)

/-- The coarse variant's `leadingZeroNumber()`: each radix marker is
consumed with the case-insensitive `match`, after which the validity test
reads `peekNext()` — the character one past the marker's successor — and
on success one character is consumed unchecked before the digit run.  A
failed test reports a diagnostic; either way the numeric token is then
emitted.  Without any marker, fall back to `number()`. -/
def leadingZeroNumberC (s : ScanState CTokenType) : ScanState CTokenType :=
  let rb := matchCharLower s 'b'
  if rb.2 then
    leadingZeroTailC
      (if isBinaryDigitOpt (peekNext rb.1 1) = true then
        readWhileP isBinaryDigitOpt (advanceBy rb.1 1)
      else addError rb.1 ScanError.binaryDigitExpected)
  else
    let ro := matchCharLower rb.1 'o'
    if ro.2 then
      leadingZeroTailC
        (if isOctalDigitOpt (peekNext ro.1 1) = true then
          readWhileP isOctalDigitOpt (advanceBy ro.1 1)
        else addError ro.1 ScanError.octalDigitExpected)
    else
      let rx := matchCharLower ro.1 'x'
      if rx.2 then
        leadingZeroTailC
          (if isHexadecimalDigitOpt (peekNext rx.1 1) = true then
            readWhileP isHexadecimalDigitOpt (advanceBy rx.1 1)
          else addError rx.1 ScanError.hexadecimalDigitExpected)
      else numberC rx.1

/-- Fuelled body of the coarse block-comment loop
`while (not match(minus) or peek() != rightBrace) advance()`, followed by
the `advance()` after the loop.  The loop has no end-of-input guard: once
the cursor passes the end, `match` always fails and the loop never exits,
so fuel exhaustion (`none`) models divergence. -/
def blockCommentF : Nat → ScanState CTokenType → Option (ScanState CTokenType)
  | 0, _ => none
  | fuel + 1, s =>
      let r := matchChar s '-'
      if r.2 then
        if peek r.1 = some '}' then some (advanceBy r.1 1)
        else blockCommentF fuel (advanceBy r.1 1)
      else blockCommentF fuel (advanceBy r.1 1)

/-- Dispatch of the coarse variant's `scanToken()` on the consumed
character `c`.  Unlike the fine variant, the source `switch` here relies
on fall-through: an opening brace whose `match(minus)` fails falls into
the closing-brace arm; the minus arm falls (after an optional line
comment) through the empty plus/star/slash/bang arm into the equal arm,
emitting an operator token. -/
def scanTokenCChar (bfuel : Nat) (s : ScanState CTokenType) (c : Char) :
    Option (ScanState CTokenType) :=
  if c = '(' ∨ c = ')' then some (addToken s CTokenType.bracket)
  else if c = '{' then
    let r := matchChar s '-'
    if r.2 then blockCommentF bfuel r.1
    else some (addToken r.1 CTokenType.bracket)
  else if c = '}' then some (addToken s CTokenType.bracket)
  else if c = '<' ∨ c = '>' then
    let r := matchChar s '='
    some (addToken r.1 (if r.2 then CTokenType.operator else CTokenType.bracket))
  else if c = ',' ∨ c = '.' ∨ c = ';' then some (addToken s CTokenType.punctuation)
  else if c = '-' then
    let r := matchChar s '-'
    some (addToken (if r.2 then skipLineComment r.1 else r.1) CTokenType.operator)
  else if c = '+' ∨ c = '*' ∨ c = '/' ∨ c = '!' ∨ c = '=' then
    some (addToken s CTokenType.operator)
  else if c = ' ' ∨ c = '\r' ∨ c = '\t' then some s
  else if c = '\n' then some { s with line := s.line + 1 }
  else if c = '0' then some (leadingZeroNumberC s)
  else if c.isDigit then some (numberC s)
  else if c = '"' then some (stringC s)
  else some (addError s (ScanError.unexpectedCharacter (some c)))

/-- The coarse variant's `scanToken()`. -/
def scanTokenC (bfuel : Nat) (s : ScanState CTokenType) : Option (ScanState CTokenType) :=
  match charAt s.source s.current with
  | some c => scanTokenCChar bfuel (advanceBy s 1) c
  | none => some (addError (advanceBy s 1) (ScanError.unexpectedCharacter none))

/-- Fuelled main loop of the coarse `scanTokens()`; the block-comment
fuel `bfuel` is threaded through unchanged. -/
def scanLoopC (bfuel : Nat) : Nat → ScanState CTokenType → Option (ScanState CTokenType)
  | 0, s => if reachedEOF s then some s else none
  | fuel + 1, s =>
      if reachedEOF s then some s
      else
        match scanTokenC bfuel { s with start := s.current } with
        | some s1 => scanLoopC bfuel fuel s1
        | none => none

/-- Initial state of the coarse scanner. -/
def initStateC (src : List Char) : ScanState CTokenType :=
  ⟨src, [], [], 0, 0, 0⟩

/-- The coarse variant's `scanTokens()`: `none` when the block-comment
loop exceeds `bfuel` iterations (on inputs where it diverges, this holds
for every `bfuel`). -/
def scanTokensC (bfuel : Nat) (src : List Char) : Option (ScanState CTokenType) :=
  (scanLoopC bfuel src.length (initStateC src)).map
    (fun s => { s with tokens := s.tokens ++ [⟨CTokenType.eof, [], s.line⟩] })

/-! ## Basic facts about the cursor primitives -/

theorem reachedEOF_iff {κ : Type} {s : ScanState κ} :
    reachedEOF s = true ↔ s.source.length ≤ s.current := by
  simp only [reachedEOF, gt_iff_lt, decide_eq_true_eq]
  omega

theorem reachedEOF_false_iff {κ : Type} {s : ScanState κ} :
    reachedEOF s = false ↔ s.current < s.source.length := by
  rw [← Bool.not_eq_true, reachedEOF_iff]
  omega

theorem charAt_eq_some {l : List Char} {i : Nat} {c : Char} (h : charAt l i = some c) :
    i < l.length := by
  by_contra hlt
  rw [charAt, List.get?_eq_none.mpr (by omega)] at h
  exact Option.noConfusion h

theorem charAt_exists {l : List Char} {i : Nat} (h : i < l.length) :
    ∃ c, charAt l i = some c := by
  rw [charAt, List.get?_eq_get h]
  exact ⟨_, rfl⟩

theorem peek_eq_some {κ : Type} {s : ScanState κ} {c : Char} (h : peek s = some c) :
    charAt s.source s.current = some c ∧ s.current < s.source.length := by
  rw [peek] at h
  split at h
  · exact Option.noConfusion h
  · rename_i hr
    exact ⟨h, reachedEOF_false_iff.mp (Bool.not_eq_true _ ▸ hr)⟩

theorem peek_of_charAt {κ : Type} {s : ScanState κ} {c : Char}
    (h : charAt s.source s.current = some c) : peek s = some c := by
  have hf : reachedEOF s = false := reachedEOF_false_iff.mpr (charAt_eq_some h)
  rw [peek, hf]
  simpa using h

theorem peekNext_eq_some {κ : Type} {s : ScanState κ} {k : Nat} {c : Char}
    (h : peekNext s k = some c) :
    charAt s.source (s.current + k) = some c ∧ s.current + 1 < s.source.length := by
  rw [peekNext] at h
  split at h
  · exact Option.noConfusion h
  · rename_i hg
    exact ⟨h, by omega⟩

/-! ## Facts about `jsSlice` -/

theorem jsSlice_self (l : List Char) (a : Nat) : jsSlice l a a = [] := by
  simp [jsSlice]

theorem jsSlice_append (l : List Char) {a b c : Nat} (hab : a ≤ b) (hbc : b ≤ c) :
    jsSlice l a b ++ jsSlice l b c = jsSlice l a c := by
  have h1 : l.drop b = (l.drop a).drop (b - a) := by
    rw [List.drop_drop]
    congr 1
    omega
  have h2 : c - a = (b - a) + (c - b) := by omega
  rw [jsSlice, jsSlice, jsSlice, h1, h2, List.take_add]

theorem jsSlice_singleton {l : List Char} {a : Nat} {c : Char} (h : charAt l a = some c) :
    jsSlice l a (a + 1) = [c] := by
  have hlt : a < l.length := charAt_eq_some h
  have hx : l[a]? = some c := by rw [← List.get?_eq_getElem?]; exact h
  have hg : l[a] = c := by
    rw [List.getElem?_eq_getElem hlt] at hx
    exact Option.some.inj hx
  rw [jsSlice, List.drop_eq_getElem_cons hlt]
  simp [hg]

theorem jsSlice_full (l : List Char) : jsSlice l 0 l.length = l := by
  simp [jsSlice]

theorem jsSlice_decomp {l : List Char} {a b : Nat} {c1 c2 : Char} (hab : a < b)
    (h1 : charAt l a = some c1) (h2 : charAt l b = some c2) :
    jsSlice l a (b + 1) = c1 :: (jsSlice l (a + 1) b ++ [c2]) := by
  have e1 : jsSlice l a (a + 1) ++ jsSlice l (a + 1) (b + 1) = jsSlice l a (b + 1) :=
    jsSlice_append l (by omega) (by omega)
  have e2 : jsSlice l (a + 1) b ++ jsSlice l b (b + 1) = jsSlice l (a + 1) (b + 1) :=
    jsSlice_append l (by omega) (by omega)
  rw [← e1, ← e2, jsSlice_singleton h1, jsSlice_singleton h2]
  simp

/-! ## Facts about newline counts over prefixes -/

theorem count_take_mono (l : List Char) (ch : Char) {a b : Nat} (h : a ≤ b) :
    (l.take a).count ch ≤ (l.take b).count ch := by
  have hsub : l.take a = (l.take b).take a := by
    rw [List.take_take, min_eq_left h]
  rw [hsub]
  exact ((l.take b).take_sublist a).count_le ch

theorem count_take_succ {l : List Char} {i : Nat} {c : Char} (h : charAt l i = some c)
    (ch : Char) :
    (l.take (i + 1)).count ch = (l.take i).count ch + if c = ch then 1 else 0 := by
  have hx : l[i]? = some c := by rw [← List.get?_eq_getElem?]; exact h
  rw [List.take_succ, hx, List.count_append]
  simp [List.count_cons]

/-! ## A relation capturing token-free cursor motion

`Moves s t` says `t` arises from `s` by consuming characters only:
source, `start`, tokens and errors are untouched, the cursor moves
forward without passing the end of input, and the line-count invariant
(`line` equals the number of line terminators before `current`) is
transported. -/

structure Moves {κ : Type} (s t : ScanState κ) : Prop where
  source : t.source = s.source
  start : t.start = s.start
  tokens : t.tokens = s.tokens
  errors : t.errors = s.errors
  mono : s.current ≤ t.current
  bound : s.current ≤ s.source.length → t.current ≤ s.source.length
  lineinv : s.line = (s.source.take s.current).count '\n' →
    t.line = (s.source.take t.current).count '\n'

theorem Moves.refl {κ : Type} (s : ScanState κ) : Moves s s :=
  ⟨rfl, rfl, rfl, rfl, Nat.le.refl, fun h => h, fun h => h⟩

theorem Moves.trans {κ : Type} {s t u : ScanState κ} (h1 : Moves s t) (h2 : Moves t u) :
    Moves s u where
  source := h2.source.trans h1.source
  start := h2.start.trans h1.start
  tokens := h2.tokens.trans h1.tokens
  errors := h2.errors.trans h1.errors
  mono := h1.mono.trans h2.mono
  bound := fun h => by
    have := h2.bound (by rw [h1.source]; exact h1.bound h)
    rwa [h1.source] at this
  lineinv := fun h => by
    have := h2.lineinv (by rw [h1.source]; exact h1.lineinv h)
    rwa [h1.source] at this

theorem moves_advance {κ : Type} {s : ScanState κ} {c : Char}
    (h : charAt s.source s.current = some c) (hc : c ≠ '\n') : Moves s (advanceBy s 1) where
  source := rfl
  start := rfl
  tokens := rfl
  errors := rfl
  mono := by simp [advanceBy]
  bound := fun _ => by
    have := charAt_eq_some h
    simp only [advanceBy]
    omega
  lineinv := fun hl => by
    simp only [advanceBy]
    rw [count_take_succ h, hl, if_neg hc]
    omega

theorem moves_advance_newline {κ : Type} {s : ScanState κ}
    (h : charAt s.source s.current = some '\n') :
    Moves s { advanceBy s 1 with line := s.line + 1 } where
  source := rfl
  start := rfl
  tokens := rfl
  errors := rfl
  mono := by simp [advanceBy]
  bound := fun _ => by
    have := charAt_eq_some h
    simp only [advanceBy]
    omega
  lineinv := fun hl => by
    simp only [advanceBy]
    rw [count_take_succ h, hl, if_pos rfl]

theorem matchChar_cases {κ : Type} (s : ScanState κ) (c : Char) :
    ((matchChar s c).1 = s ∧ (matchChar s c).2 = false) ∨
    ((matchChar s c).1 = advanceBy s 1 ∧ (matchChar s c).2 = true ∧
      charAt s.source s.current = some c) := by
  rw [matchChar]
  split
  · exact Or.inl ⟨rfl, rfl⟩
  · split
    · exact Or.inl ⟨rfl, rfl⟩
    · rename_i hne
      rw [not_not] at hne
      exact Or.inr ⟨rfl, rfl, hne⟩

theorem matchCharLower_cases {κ : Type} (s : ScanState κ) (c : Char) :
    ((matchCharLower s c).1 = s ∧ (matchCharLower s c).2 = false) ∨
    ((matchCharLower s c).1 = advanceBy s 1 ∧ (matchCharLower s c).2 = true ∧
      ∃ d, charAt s.source s.current = some d ∧ d.toLower = c) := by
  rw [matchCharLower]
  split
  · exact Or.inl ⟨rfl, rfl⟩
  · split
    · exact Or.inl ⟨rfl, rfl⟩
    · rename_i hr hne
      rw [not_not] at hne
      rcases hx : charAt s.source s.current with _ | d
      · rw [hx] at hne
        exact Option.noConfusion hne
      · rw [hx] at hne
        rw [Option.map_some'] at hne
        exact Or.inr ⟨rfl, rfl, d, rfl, Option.some.inj hne⟩

theorem moves_matchChar {κ : Type} (s : ScanState κ) {c : Char} (hc : c ≠ '\n') :
    Moves s (matchChar s c).1 := by
  rcases matchChar_cases s c with ⟨h, _⟩ | ⟨h, _, hat⟩
  · rw [h]
    exact Moves.refl s
  · rw [h]
    exact moves_advance hat hc

theorem moves_matchCharLower {κ : Type} (s : ScanState κ) {c : Char} (hc : '\n'.toLower ≠ c) :
    Moves s (matchCharLower s c).1 := by
  rcases matchCharLower_cases s c with ⟨h, _⟩ | ⟨h, _, d, hat, hd⟩
  · rw [h]
    exact Moves.refl s
  · rw [h]
    refine moves_advance hat ?_
    intro he
    exact hc (by rw [← he, hd])

theorem moves_readWhileF {κ : Type} (p : Option Char → Bool) (hp : p none = false)
    (hnl : ∀ ch, p (some ch) = true → ch ≠ '\n') :
    ∀ (fuel : Nat) (s : ScanState κ), Moves s (readWhileF p fuel s)
  | 0, s => Moves.refl s
  | fuel + 1, s => by
      rw [readWhileF]
      split
      · rename_i hcond
        rcases hpk : peek s with _ | ch
        · rw [hpk] at hcond
          rw [hp] at hcond
          exact Bool.noConfusion hcond
        · rw [hpk] at hcond
          obtain ⟨hat, _⟩ := peek_eq_some hpk
          exact (moves_advance hat (hnl ch hcond)).trans
            (moves_readWhileF p hp hnl fuel (advanceBy s 1))
      · exact Moves.refl s

theorem moves_readWhileP {κ : Type} (p : Option Char → Bool) (hp : p none = false)
    (hnl : ∀ ch, p (some ch) = true → ch ≠ '\n') (s : ScanState κ) :
    Moves s (readWhileP p s) :=
  moves_readWhileF p hp hnl _ s

theorem moves_skipLineCommentF {κ : Type} :
    ∀ (fuel : Nat) (s : ScanState κ), Moves s (skipLineCommentF fuel s)
  | 0, s => Moves.refl s
  | fuel + 1, s => by
      rw [skipLineCommentF]
      split
      · rename_i hcond
        obtain ⟨hne, heof⟩ := hcond
        obtain ⟨ch, hch⟩ := charAt_exists (reachedEOF_false_iff.mp heof)
        have hpk : peek s = some ch := peek_of_charAt hch
        have hchn : ch ≠ '\n' := by
          intro he
          rw [he] at hpk
          exact hne hpk
        exact (moves_advance hch hchn).trans (moves_skipLineCommentF fuel (advanceBy s 1))
      · exact Moves.refl s

theorem moves_skipLineComment {κ : Type} (s : ScanState κ) : Moves s (skipLineComment s) :=
  moves_skipLineCommentF _ s

theorem moves_stringBodyF {κ : Type} :
    ∀ (fuel : Nat) (s : ScanState κ), Moves s (stringBodyF fuel s)
  | 0, s => Moves.refl s
  | fuel + 1, s => by
      rw [stringBodyF]
      split
      · rename_i hcond
        obtain ⟨_, heof⟩ := hcond
        obtain ⟨ch, hch⟩ := charAt_exists (reachedEOF_false_iff.mp heof)
        have hpk : peek s = some ch := peek_of_charAt hch
        refine Moves.trans ?_ (moves_stringBodyF fuel _)
        split
        · rename_i hnl
          rw [hpk] at hnl
          have : ch = '\n' := Option.some.inj hnl
          subst this
          exact moves_advance_newline hch
        · rename_i hnl
          have hchn : ch ≠ '\n' := by
            intro he
            rw [he] at hpk
            exact hnl hpk
          exact moves_advance hch hchn
      · exact Moves.refl s

theorem moves_stringBody {κ : Type} (s : ScanState κ) : Moves s (stringBody s) :=
  moves_stringBodyF _ s

theorem stringBodyF_post {κ : Type} :
    ∀ (fuel : Nat) (s : ScanState κ), s.source.length ≤ s.current + fuel →
      peek (stringBodyF fuel s) = some '"' ∨ reachedEOF (stringBodyF fuel s) = true
  | 0, s, hfuel => by
      rw [stringBodyF]
      exact Or.inr (reachedEOF_iff.mpr (by omega))
  | fuel + 1, s, hfuel => by
      rw [stringBodyF]
      split
      · rename_i hcond
        refine stringBodyF_post fuel _ ?_
        have : (advanceBy (if peek s = some '\n' then { s with line := s.line + 1 } else s)
            1).current = s.current + 1 := by
          split <;> rfl
        have hsrc : (advanceBy (if peek s = some '\n' then { s with line := s.line + 1 }
            else s) 1).source = s.source := by
          split <;> rfl
        rw [this, hsrc]
        omega
      · rename_i hcond
        rcases Decidable.em (reachedEOF s = true) with he | he
        · exact Or.inr he
        · left
          have hff : reachedEOF s = false := by
            cases hb : reachedEOF s
            · rfl
            · exact absurd hb he
          have hor : ¬(peek s ≠ some '"' ∧ reachedEOF s = false) := hcond
          rw [not_and_or] at hor
          rcases hor with h1 | h2
          · exact not_not.mp h1
          · exact absurd hff h2

/-! ## One dispatch step of the fine scanner

`SubStep s t` describes the effect of a branch handler: cursor motion as
in `Moves`, plus at most one appended token, whose lexeme is exactly the
source slice from `start` to the final cursor, whose line is the line
counter at emission, which is never the end-of-input sentinel, and whose
lexeme carries the surrounding quotes when it is a string token. -/

structure SubStep (s t : ScanState TokenType) : Prop where
  source : t.source = s.source
  start : t.start = s.start
  mono : s.current ≤ t.current
  bound : s.current ≤ s.source.length → t.current ≤ s.source.length
  lineinv : s.line = (s.source.take s.current).count '\n' →
    t.line = (s.source.take t.current).count '\n'
  toks : t.tokens = s.tokens ∨
    ∃ tk : Tok TokenType, t.tokens = s.tokens ++ [tk] ∧
      tk.lexeme = jsSlice s.source s.start t.current ∧ tk.line = t.line ∧
      tk.type ≠ TokenType.eof ∧
      ∀ lit, tk.type = TokenType.string lit → tk.lexeme = '"' :: (lit ++ ['"'])

/-- `Step s t`: a full `scanToken` step, which always consumes at least
one character. -/
structure Step (s t : ScanState TokenType) extends SubStep s t : Prop where
  inc : s.current < t.current

theorem SubStep.of_moves {s t : ScanState TokenType} (h : Moves s t) : SubStep s t :=
  ⟨h.source, h.start, h.mono, h.bound, h.lineinv, Or.inl h.tokens⟩

theorem subStep_addError {s t : ScanState TokenType} (h : Moves s t) (e : ScanError) :
    SubStep s (addError t e) :=
  ⟨h.source, h.start, h.mono, h.bound, h.lineinv, Or.inl h.tokens⟩

theorem subStep_addToken {s t : ScanState TokenType} (h : Moves s t) (ty : TokenType)
    (hty : ty ≠ TokenType.eof) (hstr : ∀ lit, ty ≠ TokenType.string lit) :
    SubStep s (addToken t ty) where
  source := h.source
  start := h.start
  mono := h.mono
  bound := h.bound
  lineinv := h.lineinv
  toks := Or.inr ⟨⟨ty, jsSlice s.source s.start t.current, t.line⟩,
    by simp only [addToken]; rw [h.tokens, h.source, h.start],
    rfl, rfl, hty, fun lit hl => absurd hl (hstr lit)⟩

theorem subStep_addToken_addError {s t : ScanState TokenType} (h : Moves s t) (e : ScanError)
    (ty : TokenType) (hty : ty ≠ TokenType.eof)
    (hstr : ∀ lit, ty ≠ TokenType.string lit) :
    SubStep s (addToken (addError t e) ty) where
  source := h.source
  start := h.start
  mono := h.mono
  bound := h.bound
  lineinv := h.lineinv
  toks := Or.inr ⟨⟨ty, jsSlice s.source s.start t.current, t.line⟩,
    by simp only [addToken, addError]; rw [h.tokens, h.source, h.start],
    rfl, rfl, hty, fun lit hl => absurd hl (hstr lit)⟩

theorem step_comp {s t : ScanState TokenType} {c : Char}
    (hc : charAt s.source s.current = some c) (hnl : c ≠ '\n')
    (hsub : SubStep (advanceBy s 1) t) : Step s t := by
  have hb : (advanceBy s 1).current ≤ (advanceBy s 1).source.length := by
    have := charAt_eq_some hc
    simp only [advanceBy]
    omega
  refine ⟨⟨hsub.source, hsub.start, ?_, ?_, ?_, hsub.toks⟩, ?_⟩
  · exact Nat.le_of_lt (Nat.lt_of_lt_of_le (Nat.lt_succ_self _) hsub.mono)
  · exact fun _ => hsub.bound hb
  · intro hl
    refine hsub.lineinv ?_
    show s.line = (s.source.take (s.current + 1)).count '\n'
    rw [count_take_succ hc, if_neg hnl, hl]
    omega
  · exact Nat.lt_of_lt_of_le (Nat.lt_succ_self _) hsub.mono

theorem step_single {s : ScanState TokenType} {c : Char}
    (hc : charAt s.source s.current = some c) (hnl : c ≠ '\n') (ty : TokenType)
    (hty : ty ≠ TokenType.eof) (hstr : ∀ lit, ty ≠ TokenType.string lit) :
    Step s (addToken (advanceBy s 1) ty) :=
  step_comp hc hnl (subStep_addToken (Moves.refl _) ty hty hstr)

theorem step_operator {s : ScanState TokenType} {c : Char}
    (hc : charAt s.source s.current = some c) (hnl : c ≠ '\n') (ty1 ty2 : TokenType)
    (h1 : ty1 ≠ TokenType.eof) (h2 : ty2 ≠ TokenType.eof)
    (hs1 : ∀ lit, ty1 ≠ TokenType.string lit) (hs2 : ∀ lit, ty2 ≠ TokenType.string lit) :
    Step s (addToken (matchChar (advanceBy s 1) '=').1
      (if (matchChar (advanceBy s 1) '=').2 then ty1 else ty2)) := by
  refine step_comp hc hnl (subStep_addToken (moves_matchChar _ (by decide)) _ ?_ ?_)
  · split
    · exact h1
    · exact h2
  · intro lit
    split
    · exact hs1 lit
    · exact hs2 lit

theorem isDigitOpt_ne_newline : ∀ ch, isDigitOpt (some ch) = true → ch ≠ '\n' := by
  intro ch h he
  subst he
  exact absurd h (by decide)

theorem isBinaryDigitOpt_ne_newline : ∀ ch, isBinaryDigitOpt (some ch) = true → ch ≠ '\n' := by
  intro ch h he
  subst he
  exact absurd h (by decide)

theorem moves_numberFrac (s : ScanState TokenType) : Moves s (numberFrac s) := by
  rw [numberFrac]
  split
  · rename_i hcond
    obtain ⟨hat, _⟩ := peek_eq_some hcond.1
    exact (moves_advance hat (by decide)).trans
      (moves_readWhileP _ rfl isDigitOpt_ne_newline _)
  · exact Moves.refl s

theorem peek_toLower_e {κ : Type} {s : ScanState κ}
    (h : (peek s).map Char.toLower = some 'e') :
    ∃ ch, charAt s.source s.current = some ch ∧ ch.toLower = 'e' ∧ ch ≠ '\n' := by
  rcases hx : peek s with _ | ch
  · rw [hx] at h
    exact Option.noConfusion h
  · rw [hx, Option.map_some'] at h
    obtain ⟨hat, _⟩ := peek_eq_some hx
    have hl := Option.some.inj h
    refine ⟨ch, hat, hl, ?_⟩
    intro he
    rw [he] at hl
    exact absurd hl (by decide)

theorem moves_numberExp (s : ScanState TokenType) : Moves s (numberExp s) := by
  rw [numberExp]
  split
  · rename_i he
    obtain ⟨ch, hat, _, hnl⟩ := peek_toLower_e he
    split
    · exact (moves_advance hat hnl).trans (moves_readWhileP _ rfl isDigitOpt_ne_newline _)
    · split
      · rename_i hcond
        obtain ⟨hat2, _⟩ := peekNext_eq_some hcond.1
        have h2 : advanceBy s 2 = advanceBy (advanceBy s 1) 1 := rfl
        rw [h2]
        have hat2a : charAt (advanceBy s 1).source (advanceBy s 1).current = some '-' := hat2
        exact ((moves_advance hat hnl).trans (moves_advance hat2a (by decide))).trans
          (moves_readWhileP _ rfl isDigitOpt_ne_newline _)
      · exact Moves.refl s
  · exact Moves.refl s

theorem number_substep (s : ScanState TokenType) : SubStep s (number s) := by
  have m : Moves s (numberExp (numberFrac (readWhileP isDigitOpt s))) :=
    ((moves_readWhileP _ rfl isDigitOpt_ne_newline s).trans (moves_numberFrac _)).trans
      (moves_numberExp _)
  exact subStep_addToken m _ (fun h => TokenType.noConfusion h)
    (fun lit h => TokenType.noConfusion h)

theorem leadingZeroNumber_substep (s : ScanState TokenType) :
    SubStep s (leadingZeroNumber s) := by
  rw [leadingZeroNumber]
  split
  · rename_i hb
    obtain ⟨ch, hat, hlow, hnl⟩ : ∃ ch, charAt s.source s.current = some ch ∧
        ch.toLower = 'b' ∧ ch ≠ '\n' := by
      rcases hx : peek s with _ | ch
      · rw [hx] at hb
        exact Option.noConfusion hb
      · rw [hx, Option.map_some'] at hb
        obtain ⟨hat, _⟩ := peek_eq_some hx
        have hl := Option.some.inj hb
        refine ⟨ch, hat, hl, ?_⟩
        intro he
        rw [he] at hl
        exact absurd hl (by decide)
    split
    · exact subStep_addToken
        ((moves_advance hat hnl).trans (moves_readWhileP _ rfl isBinaryDigitOpt_ne_newline _))
        _ (fun h => TokenType.noConfusion h) (fun lit h => TokenType.noConfusion h)
    · exact subStep_addToken_addError (Moves.refl s) _ _
        (fun h => TokenType.noConfusion h) (fun lit h => TokenType.noConfusion h)
  · exact number_substep s

theorem scanString_substep (s : ScanState TokenType) (hlen : s.current ≤ s.source.length)
    (hq : charAt s.source s.start = some '"') (hsc : s.start + 1 ≤ s.current) :
    SubStep s (scanString s) := by
  have m1 : Moves s (stringBody s) := moves_stringBody s
  rw [scanString]
  split
  · exact subStep_addError m1 _
  · rename_i hne
    have hpost := stringBodyF_post (s.source.length - s.current) s (by omega)
    have hpk : peek (stringBody s) = some '"' := by
      rcases hpost with h | h
      · exact h
      · exact absurd h hne
    obtain ⟨hatq, hltq⟩ := peek_eq_some hpk
    have m2 : Moves s (advanceBy (stringBody s) 1) :=
      m1.trans (moves_advance hatq (by decide))
    have hBcur : s.start + 1 ≤ (stringBody s).current := le_trans hsc m1.mono
    have hq2 : charAt s.source (stringBody s).current = some '"' := by
      rw [← m1.source]
      exact hatq
    refine ⟨m2.source, m2.start, m2.mono, m2.bound, m2.lineinv, Or.inr
      ⟨⟨TokenType.string (jsSlice (advanceBy (stringBody s) 1).source
          ((advanceBy (stringBody s) 1).start + 1)
          ((advanceBy (stringBody s) 1).current - 1)),
        jsSlice s.source s.start (advanceBy (stringBody s) 1).current,
        (advanceBy (stringBody s) 1).line⟩, ?_, rfl, rfl,
        fun h => TokenType.noConfusion h, ?_⟩⟩
    · show (addToken _ _).tokens = s.tokens ++ _
      simp only [addToken]
      rw [m2.tokens, m2.source, m2.start]
    · intro lit hlit
      have hlit2 : jsSlice (advanceBy (stringBody s) 1).source
          ((advanceBy (stringBody s) 1).start + 1)
          ((advanceBy (stringBody s) 1).current - 1) = lit := by
        injection hlit
      subst hlit2
      show jsSlice s.source s.start (advanceBy (stringBody s) 1).current =
        '"' :: (jsSlice (advanceBy (stringBody s) 1).source
          ((advanceBy (stringBody s) 1).start + 1)
          ((advanceBy (stringBody s) 1).current - 1) ++ ['"'])
      have hsrc : (advanceBy (stringBody s) 1).source = s.source := m2.source
      have hst : (advanceBy (stringBody s) 1).start = s.start := m2.start
      have hcur : (advanceBy (stringBody s) 1).current = (stringBody s).current + 1 := rfl
      rw [hsrc, hst, hcur]
      simp only [Nat.add_sub_cancel]
      exact jsSlice_decomp (by omega) hq hq2

theorem scanToken_step (s : ScanState TokenType) (h : s.current < s.source.length)
    (hstart : s.start = s.current) : Step s (scanToken s) := by
  obtain ⟨c, hc⟩ := charAt_exists h
  have hgoal : scanToken s = scanTokenChar (advanceBy s 1) c := by
    rw [scanToken, hc]
  rw [hgoal]
  have noconf : ∀ lit, ∀ v k, TokenType.number v k ≠ TokenType.string lit :=
    fun lit v k hh => TokenType.noConfusion hh
  simp only [scanTokenChar]
  by_cases h1 : c = '('
  · rw [if_pos h1]
    exact step_single hc (by rw [h1]; decide) _ (by decide)
      (fun lit hh => TokenType.noConfusion hh)
  rw [if_neg h1]
  by_cases h2 : c = ')'
  · rw [if_pos h2]
    exact step_single hc (by rw [h2]; decide) _ (by decide)
      (fun lit hh => TokenType.noConfusion hh)
  rw [if_neg h2]
  by_cases h3 : c = '{'
  · rw [if_pos h3]
    exact step_single hc (by rw [h3]; decide) _ (by decide)
      (fun lit hh => TokenType.noConfusion hh)
  rw [if_neg h3]
  by_cases h4 : c = '}'
  · rw [if_pos h4]
    exact step_single hc (by rw [h4]; decide) _ (by decide)
      (fun lit hh => TokenType.noConfusion hh)
  rw [if_neg h4]
  by_cases h5 : c = ','
  · rw [if_pos h5]
    exact step_single hc (by rw [h5]; decide) _ (by decide)
      (fun lit hh => TokenType.noConfusion hh)
  rw [if_neg h5]
  by_cases h6 : c = '.'
  · rw [if_pos h6]
    exact step_single hc (by rw [h6]; decide) _ (by decide)
      (fun lit hh => TokenType.noConfusion hh)
  rw [if_neg h6]
  by_cases h7 : c = '-'
  · rw [if_pos h7]
    refine step_comp hc (by rw [h7]; decide) ?_
    split
    · exact SubStep.of_moves ((moves_matchChar _ (by decide)).trans (moves_skipLineComment _))
    · exact subStep_addToken (moves_matchChar _ (by decide)) _ (by decide)
        (fun lit hh => TokenType.noConfusion hh)
  rw [if_neg h7]
  by_cases h8 : c = '+'
  · rw [if_pos h8]
    exact step_single hc (by rw [h8]; decide) _ (by decide)
      (fun lit hh => TokenType.noConfusion hh)
  rw [if_neg h8]
  by_cases h9 : c = ';'
  · rw [if_pos h9]
    exact step_single hc (by rw [h9]; decide) _ (by decide)
      (fun lit hh => TokenType.noConfusion hh)
  rw [if_neg h9]
  by_cases h10 : c = '*'
  · rw [if_pos h10]
    exact step_single hc (by rw [h10]; decide) _ (by decide)
      (fun lit hh => TokenType.noConfusion hh)
  rw [if_neg h10]
  by_cases h11 : c = '/'
  · rw [if_pos h11]
    exact step_single hc (by rw [h11]; decide) _ (by decide)
      (fun lit hh => TokenType.noConfusion hh)
  rw [if_neg h11]
  by_cases h12 : c = '!'
  · rw [if_pos h12]
    exact step_operator hc (by rw [h12]; decide) _ _ (by decide) (by decide)
      (fun lit hh => TokenType.noConfusion hh) (fun lit hh => TokenType.noConfusion hh)
  rw [if_neg h12]
  by_cases h13 : c = '='
  · rw [if_pos h13]
    exact step_operator hc (by rw [h13]; decide) _ _ (by decide) (by decide)
      (fun lit hh => TokenType.noConfusion hh) (fun lit hh => TokenType.noConfusion hh)
  rw [if_neg h13]
  by_cases h14 : c = '<'
  · rw [if_pos h14]
    exact step_operator hc (by rw [h14]; decide) _ _ (by decide) (by decide)
      (fun lit hh => TokenType.noConfusion hh) (fun lit hh => TokenType.noConfusion hh)
  rw [if_neg h14]
  by_cases h15 : c = '>'
  · rw [if_pos h15]
    exact step_operator hc (by rw [h15]; decide) _ _ (by decide) (by decide)
      (fun lit hh => TokenType.noConfusion hh) (fun lit hh => TokenType.noConfusion hh)
  rw [if_neg h15]
  by_cases h16 : c = ' '
  · rw [if_pos h16]
    exact step_comp hc (by rw [h16]; decide) (SubStep.of_moves (Moves.refl _))
  rw [if_neg h16]
  by_cases h17 : c = '\r'
  · rw [if_pos h17]
    exact step_comp hc (by rw [h17]; decide) (SubStep.of_moves (Moves.refl _))
  rw [if_neg h17]
  by_cases h18 : c = '\t'
  · rw [if_pos h18]
    exact step_comp hc (by rw [h18]; decide) (SubStep.of_moves (Moves.refl _))
  rw [if_neg h18]
  by_cases h19 : c = '\n'
  · rw [if_pos h19]
    subst h19
    exact ⟨SubStep.of_moves (moves_advance_newline hc), Nat.lt_succ_self _⟩
  rw [if_neg h19]
  by_cases h20 : c = '0'
  · rw [if_pos h20]
    exact step_comp hc (by rw [h20]; decide) (leadingZeroNumber_substep _)
  rw [if_neg h20]
  by_cases h21 : c.isDigit = true
  · rw [if_pos h21]
    refine step_comp hc ?_ (number_substep _)
    intro he
    rw [he] at h21
    exact absurd h21 (by decide)
  rw [if_neg h21]
  by_cases h22 : c = '"'
  · rw [if_pos h22]
    refine step_comp hc (by rw [h22]; decide) (scanString_substep _ ?_ ?_ ?_)
    · show s.current + 1 ≤ s.source.length
      omega
    · show charAt s.source s.start = some '"'
      rw [hstart, hc, h22]
    · show s.start + 1 ≤ s.current + 1
      omega
  rw [if_neg h22]
  exact step_comp hc h19 (subStep_addError (Moves.refl _) _)

/-! ## Token spans

`SpannedBy src a ts e` says the tokens `ts` occupy consecutive,
non-overlapping spans of `src` between positions `a` and `e`, in order:
each token's lexeme is exactly the source slice of its span and its line
field counts the line terminators before its span's end. -/

inductive SpannedBy (src : List Char) : Nat → List (Tok TokenType) → Nat → Prop
  | nil (a e : Nat) (hae : a ≤ e) (he : e ≤ src.length) : SpannedBy src a [] e
  | cons (a b c e : Nat) (t : Tok TokenType) (ts : List (Tok TokenType))
      (hab : a ≤ b) (hbc : b ≤ c) (hce : c ≤ src.length)
      (hlex : t.lexeme = jsSlice src b c)
      (hline : t.line = (src.take c).count '\n')
      (rest : SpannedBy src c ts e) : SpannedBy src a (t :: ts) e

theorem SpannedBy.le {src : List Char} {a : Nat} {ts : List (Tok TokenType)} {e : Nat}
    (h : SpannedBy src a ts e) : a ≤ e := by
  induction h with
  | nil a e hae he => exact hae
  | cons a b c e t ts hab hbc hce hlex hline rest ih => omega

theorem SpannedBy.e_le {src : List Char} {a : Nat} {ts : List (Tok TokenType)} {e : Nat}
    (h : SpannedBy src a ts e) : e ≤ src.length := by
  induction h with
  | nil a e hae he => exact he
  | cons a b c e t ts hab hbc hce hlex hline rest ih => exact ih

theorem SpannedBy.mono_e {src : List Char} {a : Nat} {ts : List (Tok TokenType)} {e : Nat}
    (h : SpannedBy src a ts e) :
    ∀ e2, e ≤ e2 → e2 ≤ src.length → SpannedBy src a ts e2 := by
  induction h with
  | nil a e hae he =>
      exact fun e2 h1 h2 => SpannedBy.nil a e2 (by omega) h2
  | cons a b c e t ts hab hbc hce hlex hline rest ih =>
      exact fun e2 h1 h2 => SpannedBy.cons a b c e2 t ts hab hbc hce hlex hline (ih e2 h1 h2)

theorem SpannedBy.snoc {src : List Char} {a : Nat} {ts : List (Tok TokenType)} {e : Nat}
    (h : SpannedBy src a ts e) :
    ∀ (t : Tok TokenType) (c : Nat), e ≤ c → c ≤ src.length → t.lexeme = jsSlice src e c →
      t.line = (src.take c).count '\n' → SpannedBy src a (ts ++ [t]) c := by
  induction h with
  | nil a e hae he =>
      intro t c hec hc hlex hline
      exact SpannedBy.cons a e c c t [] hae hec hc hlex hline
        (SpannedBy.nil c c (by omega) hc)
  | cons a b c2 e t2 ts hab hbc hce hlex2 hline2 rest ih =>
      intro t c hec hc hlex hline
      exact SpannedBy.cons a b c2 c t2 _ hab hbc hce hlex2 hline2 (ih t c hec hc hlex hline)

theorem SpannedBy.append_nil {src : List Char} {a : Nat} {ts : List (Tok TokenType)} {e : Nat}
    (h : SpannedBy src a ts e) : SpannedBy src a ts e := h

theorem SpannedBy.mem_spec {src : List Char} {a : Nat} {ts : List (Tok TokenType)} {e : Nat}
    (h : SpannedBy src a ts e) {t : Tok TokenType} (hm : t ∈ ts) :
    ∃ b c, a ≤ b ∧ b ≤ c ∧ c ≤ src.length ∧ t.lexeme = jsSlice src b c ∧
      t.line = (src.take c).count '\n' := by
  induction h with
  | nil a e hae he => exact absurd hm (List.not_mem_nil t)
  | cons a b c e t2 ts hab hbc hce hlex hline rest ih =>
      rcases List.mem_cons.mp hm with he2 | hm2
      · subst he2
        exact ⟨b, c, hab, hbc, hce, hlex, hline⟩
      · obtain ⟨b2, c2, h1, h2, h3, h4, h5⟩ := ih hm2
        exact ⟨b2, c2, by omega, h2, h3, h4, h5⟩

theorem SpannedBy.line_lb {src : List Char} {a : Nat} {ts : List (Tok TokenType)} {e : Nat}
    (h : SpannedBy src a ts e) {t : Tok TokenType} (hm : t ∈ ts) :
    (src.take a).count '\n' ≤ t.line := by
  induction h with
  | nil a e hae he => exact absurd hm (List.not_mem_nil t)
  | cons a b c e t2 ts hab hbc hce hlex hline rest ih =>
      rcases List.mem_cons.mp hm with he2 | hm2
      · subst he2
        rw [hline]
        exact count_take_mono src '\n' (by omega)
      · exact le_trans (count_take_mono src '\n' (by omega)) (ih hm2)

theorem SpannedBy.line_ub {src : List Char} {a : Nat} {ts : List (Tok TokenType)} {e : Nat}
    (h : SpannedBy src a ts e) {t : Tok TokenType} (hm : t ∈ ts) :
    t.line ≤ (src.take e).count '\n' := by
  induction h with
  | nil a e hae he => exact absurd hm (List.not_mem_nil t)
  | cons a b c e t2 ts hab hbc hce hlex hline rest ih =>
      rcases List.mem_cons.mp hm with he2 | hm2
      · subst he2
        rw [hline]
        exact count_take_mono src '\n' rest.le
      · exact ih hm2

theorem SpannedBy.pairwise_line {src : List Char} {a : Nat} {ts : List (Tok TokenType)}
    {e : Nat} (h : SpannedBy src a ts e) :
    List.Pairwise (fun t u => t.line ≤ u.line) ts := by
  induction h with
  | nil a e hae he => exact List.Pairwise.nil
  | cons a b c e t ts hab hbc hce hlex hline rest ih =>
      refine List.Pairwise.cons ?_ ih
      intro u hu
      rw [hline]
      exact le_trans (count_take_mono src '\n' (by omega)) (rest.line_lb hu)

/-- Interleave gap slices with lexemes: the reconstruction shape of the
scan (a gap, then a lexeme, then a gap, and so on). -/
def interleave : List (List Char) → List (List Char) → List Char
  | [], _ => []
  | g :: _, [] => g
  | g :: gs, l :: ls => g ++ l ++ interleave gs ls

theorem SpannedBy.reconstruct {src : List Char} {a : Nat} {ts : List (Tok TokenType)}
    {e : Nat} (h : SpannedBy src a ts e) :
    ∃ gaps : List (List Char), gaps.length = ts.length + 1 ∧
      interleave gaps (ts.map Tok.lexeme) = jsSlice src a src.length := by
  induction h with
  | nil a e hae he =>
      exact ⟨[jsSlice src a src.length], rfl, rfl⟩
  | cons a b c e t ts hab hbc hce hlex hline rest ih =>
      obtain ⟨gaps, hlen, hrec⟩ := ih
      refine ⟨jsSlice src a b :: gaps, by simp [hlen], ?_⟩
      rcases gaps with _ | ⟨g, gs⟩
      · simp at hlen
      · show jsSlice src a b ++ t.lexeme ++ interleave (g :: gs) (ts.map Tok.lexeme) =
          jsSlice src a src.length
        rw [hrec, hlex]
        rw [List.append_assoc]
        rw [jsSlice_append src hbc hce]
        exact jsSlice_append src hab (by omega)

/-! ## The scan-loop invariant -/

structure ScanInv (s : ScanState TokenType) : Prop where
  cur_le : s.current ≤ s.source.length
  line_eq : s.line = (s.source.take s.current).count '\n'
  spans : SpannedBy s.source 0 s.tokens s.current
  no_eof : ∀ t ∈ s.tokens, t.type ≠ TokenType.eof
  str_lex : ∀ t ∈ s.tokens, ∀ lit, t.type = TokenType.string lit →
    t.lexeme = '"' :: (lit ++ ['"'])

theorem ScanInv.init (src : List Char) : ScanInv (initState src) where
  cur_le := Nat.zero_le _
  line_eq := by simp [initState]
  spans := SpannedBy.nil 0 0 (Nat.le.refl) (Nat.zero_le _)
  no_eof := fun t ht => absurd ht (List.not_mem_nil t)
  str_lex := fun t ht => absurd ht (List.not_mem_nil t)

theorem ScanInv.step {s : ScanState TokenType} (hi : ScanInv s) (hlt : s.current < s.source.length) :
    ScanInv (scanToken { s with start := s.current }) := by
  have hstep : Step { s with start := s.current } (scanToken { s with start := s.current }) :=
    scanToken_step _ hlt rfl
  have hsrc : (scanToken { s with start := s.current }).source = s.source := hstep.source
  have hcur : (scanToken { s with start := s.current }).current ≤ s.source.length :=
    hstep.bound (Nat.le_of_lt hlt)
  have hmono : s.current ≤ (scanToken { s with start := s.current }).current := hstep.mono
  have hline : (scanToken { s with start := s.current }).line =
      (s.source.take (scanToken { s with start := s.current }).current).count '\n' :=
    hstep.lineinv hi.line_eq
  refine ⟨?_, ?_, ?_, ?_, ?_⟩
  · rw [hsrc]
    exact hcur
  · rw [hsrc]
    exact hline
  · rw [hsrc]
    rcases hstep.toks with heq | ⟨tk, heq, hlex, hl, hne, hq⟩
    · rw [heq]
      exact hi.spans.mono_e _ hmono hcur
    · rw [heq]
      exact hi.spans.snoc tk _ hmono hcur hlex (by rw [hl, hline])
  · intro t ht
    rcases hstep.toks with heq | ⟨tk, heq, hlex, hl, hne, hq⟩
    · rw [heq] at ht
      exact hi.no_eof t ht
    · rw [heq] at ht
      rcases List.mem_append.mp ht with h1 | h2
      · exact hi.no_eof t h1
      · rw [List.mem_singleton.mp h2]
        exact hne
  · intro t ht
    rcases hstep.toks with heq | ⟨tk, heq, hlex, hl, hne, hq⟩
    · rw [heq] at ht
      exact hi.str_lex t ht
    · rw [heq] at ht
      rcases List.mem_append.mp ht with h1 | h2
      · exact hi.str_lex t h1
      · rw [List.mem_singleton.mp h2]
        exact hq

theorem scanLoopF_spec : ∀ (fuel : Nat) (s : ScanState TokenType), ScanInv s →
    ScanInv (scanLoopF fuel s) ∧ (scanLoopF fuel s).source = s.source ∧
      (s.source.length ≤ s.current + fuel →
        (scanLoopF fuel s).current = s.source.length)
  | 0, s, hi => ⟨hi, rfl, fun h => by
      have := hi.cur_le
      simp only [scanLoopF]
      omega⟩
  | fuel + 1, s, hi => by
      rw [scanLoopF]
      split
      · rename_i he
        refine ⟨hi, rfl, fun _ => ?_⟩
        have hle := reachedEOF_iff.mp he
        have := hi.cur_le
        omega
      · rename_i he
        have hlt : s.current < s.source.length := by
          rw [← reachedEOF_false_iff]
          cases hb : reachedEOF s
          · rfl
          · exact absurd hb he
        have hstep : Step { s with start := s.current } (scanToken { s with start := s.current }) :=
          scanToken_step _ hlt rfl
        have hinv2 := ScanInv.step hi hlt
        obtain ⟨h1, h2, h3⟩ := scanLoopF_spec fuel _ hinv2
        refine ⟨h1, ?_, ?_⟩
        · rw [h2]
          exact hstep.source
        · intro hfl
          have hsrc : (scanToken { s with start := s.current }).source = s.source :=
            hstep.source
          have hinc : s.current < (scanToken { s with start := s.current }).current :=
            hstep.inc
          have hres := h3 (by rw [hsrc]; omega)
          rw [hsrc] at hres
          exact hres

/-! ## Final-state facts and specialised scan paths -/

theorem scanTokens_final (src : List Char) :
    (scanLoopF src.length (initState src)).source = src ∧
    (scanLoopF src.length (initState src)).current = src.length ∧
    ScanInv (scanLoopF src.length (initState src)) := by
  obtain ⟨h1, h2, h3⟩ := scanLoopF_spec src.length (initState src) (ScanInv.init src)
  refine ⟨h2, ?_, h1⟩
  exact h3 (by simp [initState])

theorem scanLoopF_eof {s : ScanState TokenType} (h : reachedEOF s = true) :
    ∀ fuel, scanLoopF fuel s = s
  | 0 => rfl
  | fuel + 1 => by
      rw [scanLoopF, if_pos h]

theorem drop_cons_of_charAt {l : List Char} {n : Nat} {c : Char} (h : charAt l n = some c) :
    l.drop n = c :: l.drop (n + 1) := by
  have hlt := charAt_eq_some h
  have hx : l[n]? = some c := by rw [← List.get?_eq_getElem?]; exact h
  have hg : l[n] = c := by
    rw [List.getElem?_eq_getElem hlt] at hx
    exact Option.some.inj hx
  rw [List.drop_eq_getElem_cons hlt, hg]

theorem stringBodyF_consume_all : ∀ (fuel : Nat) (s : ScanState TokenType),
    s.source.length ≤ s.current + fuel → s.current ≤ s.source.length →
    '"' ∉ s.source.drop s.current →
    (stringBodyF fuel s).current = s.source.length
  | 0, s, hf, hc, hq => by
      rw [stringBodyF]
      omega
  | fuel + 1, s, hf, hc, hq => by
      rw [stringBodyF]
      split
      · rename_i hcond
        have hlt : s.current < s.source.length := reachedEOF_false_iff.mp hcond.2
        obtain ⟨ch, hch⟩ := charAt_exists hlt
        have hdrop : s.source.drop s.current = ch :: s.source.drop (s.current + 1) :=
          drop_cons_of_charAt hch
        have hq2 : '"' ∉ s.source.drop (s.current + 1) := by
          intro hmem
          exact hq (by rw [hdrop]; exact List.mem_cons_of_mem _ hmem)
        have hcur2 : (advanceBy (if peek s = some '\n' then { s with line := s.line + 1 }
            else s) 1).current = s.current + 1 := by
          split <;> rfl
        have hsrc2 : (advanceBy (if peek s = some '\n' then { s with line := s.line + 1 }
            else s) 1).source = s.source := by
          split <;> rfl
        have := stringBodyF_consume_all fuel
          (advanceBy (if peek s = some '\n' then { s with line := s.line + 1 } else s) 1)
          (by rw [hcur2, hsrc2]; omega) (by rw [hcur2, hsrc2]; omega)
          (by rw [hcur2, hsrc2]; exact hq2)
        rw [hsrc2] at this
        exact this
      · rename_i hcond
        rcases not_and_or.mp hcond with h1 | h2
        · rw [not_not] at h1
          obtain ⟨hat, _⟩ := peek_eq_some h1
          exact absurd (by rw [drop_cons_of_charAt hat]; exact List.mem_cons_self _ _) hq
        · have : reachedEOF s = true := by
            cases hb : reachedEOF s
            · exact absurd hb h2
            · rfl
          have := reachedEOF_iff.mp this
          omega

theorem scanToken_quote {s : ScanState TokenType} (hq : charAt s.source s.current = some '"') :
    scanToken s = scanString (advanceBy s 1) := by
  have hgoal : scanToken s = scanTokenChar (advanceBy s 1) '"' := by
    rw [scanToken, hq]
  rw [hgoal]
  simp [scanTokenChar]

theorem scanLoopF_unterminated (s : ScanState TokenType) (fuel : Nat)
    (hq : charAt s.source s.current = some '"')
    (hno : '"' ∉ s.source.drop (s.current + 1)) :
    (scanLoopF (fuel + 1) { s with start := s.current }).tokens = s.tokens ∧
    (scanLoopF (fuel + 1) { s with start := s.current }).errors =
      s.errors ++ [ScanError.unterminatedString] ∧
    (scanLoopF (fuel + 1) { s with start := s.current }).current = s.source.length := by
  have hlt : s.current < s.source.length := charAt_eq_some hq
  have heof : reachedEOF ({ s with start := s.current } : ScanState TokenType) = false :=
    reachedEOF_false_iff.mpr hlt
  rw [scanLoopF, if_neg (by rw [heof]; exact Bool.false_ne_true)]
  have hq0 : charAt ({ s with start := s.current } : ScanState TokenType).source
      ({ s with start := s.current } : ScanState TokenType).current = some '"' := hq
  rw [scanToken_quote hq0]
  have hBcur : (stringBody (advanceBy ({ s with start := s.current } :
      ScanState TokenType) 1)).current = s.source.length := by
    rw [stringBody]
    have h1 := stringBodyF_consume_all
      ((advanceBy ({ s with start := s.current } : ScanState TokenType) 1).source.length -
        (advanceBy ({ s with start := s.current } : ScanState TokenType) 1).current)
      (advanceBy ({ s with start := s.current } : ScanState TokenType) 1)
      (by show s.source.length ≤ s.current + 1 + (s.source.length - (s.current + 1)); omega)
      (by show s.current + 1 ≤ s.source.length; omega)
      (by exact hno)
    exact h1
  have mB := moves_stringBody (advanceBy ({ s with start := s.current } :
      ScanState TokenType) 1)
  have heofB : reachedEOF (stringBody (advanceBy ({ s with start := s.current } :
      ScanState TokenType) 1)) = true := by
    rw [reachedEOF_iff, hBcur, mB.source]
    show s.source.length ≤ s.source.length
    exact Nat.le_refl _
  rw [scanString, if_pos heofB]
  have htoks : (addError (stringBody (advanceBy ({ s with start := s.current } :
      ScanState TokenType) 1)) ScanError.unterminatedString).tokens = s.tokens := mB.tokens
  have herrs : (addError (stringBody (advanceBy ({ s with start := s.current } :
      ScanState TokenType) 1)) ScanError.unterminatedString).errors =
      s.errors ++ [ScanError.unterminatedString] := by
    show (stringBody _).errors ++ [ScanError.unterminatedString] = _
    rw [mB.errors]
    rfl
  have heofE : reachedEOF (addError (stringBody (advanceBy ({ s with start := s.current } :
      ScanState TokenType) 1)) ScanError.unterminatedString) = true := by
    rw [reachedEOF_iff]
    show (stringBody _).source.length ≤ (stringBody _).current
    rw [mB.source, hBcur]
    show s.source.length ≤ s.source.length
    exact Nat.le_refl _
  rw [scanLoopF_eof heofE fuel]
  refine ⟨htoks, herrs, ?_⟩
  show (stringBody _).current = _
  rw [hBcur]

theorem blockCommentF_none : ∀ (fuel : Nat) (s : ScanState CTokenType),
    s.source.length ≤ s.current → blockCommentF fuel s = none
  | 0, _, _ => rfl
  | fuel + 1, s, h => by
      rw [blockCommentF]
      have hm : matchChar s '-' = (s, false) := by
        rw [matchChar, if_pos (reachedEOF_iff.mpr h)]
      rw [hm]
      show blockCommentF fuel (advanceBy s 1) = none
      exact blockCommentF_none fuel (advanceBy s 1) (by simp [advanceBy]; omega)

theorem scanTokensC_unclosed_block (bfuel : Nat) : scanTokensC bfuel ['{', '-'] = none := by
  have hb : blockCommentF bfuel ⟨['{', '-'], [], [], 0, 2, 0⟩ = none :=
    blockCommentF_none bfuel _ (by decide)
  show ((match blockCommentF bfuel ⟨['{', '-'], [], [], 0, 2, 0⟩ with
      | some s1 => scanLoopC bfuel 1 s1
      | none => none).map
      (fun s : ScanState CTokenType =>
        { s with tokens := s.tokens ++ [(⟨CTokenType.eof, [], s.line⟩ : Tok CTokenType)] })) =
      none
  rw [hb]
  rfl

theorem scanTokens_spanned (src : List Char) :
    SpannedBy src 0 (scanTokens src).tokens src.length := by
  obtain ⟨hs, hc, hi⟩ := scanTokens_final src
  have hsp : SpannedBy src 0 (scanLoopF src.length (initState src)).tokens src.length := by
    have h0 := hi.spans
    rw [hs, hc] at h0
    exact h0
  show SpannedBy src 0 ((scanLoopF src.length (initState src)).tokens ++
    [⟨TokenType.eof, [], (scanLoopF src.length (initState src)).line⟩]) src.length
  refine hsp.snoc _ src.length (Nat.le_refl _) (Nat.le_refl _) ?_ ?_
  · exact (jsSlice_self src src.length).symm
  · show (scanLoopF src.length (initState src)).line = (src.take src.length).count '\n'
    have h1 := hi.line_eq
    rw [hs, hc] at h1
    exact h1

/-! ## Claim theorems -/

/-- C1: for every input, `scanTokens` terminates and returns a sequence
whose last element is the end-of-input token (kind `eof`, empty lexeme)
with no earlier element of kind `eof`; scanning the empty string yields
exactly the end-of-input token at the initial line counter. -/
theorem scan_eof_sentinel_last_unique :
    (∀ src : List Char, ∃ (ts : List (Tok TokenType)) (n : Nat),
      (scanTokens src).tokens = ts ++ [⟨TokenType.eof, [], n⟩] ∧
        ∀ t ∈ ts, t.type ≠ TokenType.eof) ∧
    (scanTokens []).tokens = [⟨TokenType.eof, [], 0⟩] := by
  constructor
  · intro src
    obtain ⟨hs, hc, hi⟩ := scanTokens_final src
    exact ⟨(scanLoopF src.length (initState src)).tokens,
      (scanLoopF src.length (initState src)).line, rfl, hi.no_eof⟩
  · decide

/-- Witness for C1 at the concrete input consisting of the digit one. -/
theorem scan_eof_sentinel_last_unique_witness :
    ∃ (ts : List (Tok TokenType)) (n : Nat),
      (scanTokens ['1']).tokens = ts ++ [⟨TokenType.eof, [], n⟩] ∧
        ∀ t ∈ ts, t.type ≠ TokenType.eof :=
  scan_eof_sentinel_last_unique.1 ['1']

/-- C2: the coarse variant's block-comment loop has no end-of-input
guard, so on an unclosed opener the whole scan diverges (it exhausts any
amount of fuel); the fine variant's pass, in contrast, reaches the end of
input within `source.length` iterations on every input. -/
theorem scan_termination_and_block_comment_divergence :
    (∀ bfuel : Nat, scanTokensC bfuel ['{', '-'] = none) ∧
    (∀ src : List Char, (scanLoopF src.length (initState src)).current = src.length) :=
  ⟨scanTokensC_unclosed_block, fun src => (scanTokens_final src).2.1⟩

/-- C3 counterexample: scanning a lone unrecognized character yields only
the sentinel (whose lexeme is empty), so the character appears in no
lexeme, yet it is not whitespace, not a comment introducer, and not a
string-quote delimiter — the skipped gap is an erroneous span, not a
whitespace/comment span as the claim states. -/
theorem scan_gap_error_span_cex :
    (scanTokens ['@']).tokens = [⟨TokenType.eof, [], 0⟩] ∧
    (scanTokens ['@']).errors = [ScanError.unexpectedCharacter (some '@')] ∧
    ¬('@' = ' ' ∨ '@' = '\r' ∨ '@' = '\t' ∨ '@' = '\n' ∨ '@' = '-' ∨ '@' = '"') := by
  exact ⟨by decide, by decide, by decide⟩

/-- C3 (amended): the tokens returned by the fine scanner occupy ordered,
non-overlapping source spans whose slices are exactly their lexemes, and
interleaving the skipped gap slices with the lexemes reconstructs the
source text exactly; the gaps are the skipped spans (whitespace,
comments, and erroneous input), not only whitespace/comment spans. -/
theorem scan_reconstruction :
    ∀ src : List Char, SpannedBy src 0 (scanTokens src).tokens src.length ∧
      ∃ gaps : List (List Char), gaps.length = (scanTokens src).tokens.length + 1 ∧
        interleave gaps ((scanTokens src).tokens.map Tok.lexeme) = src := by
  intro src
  have hsp := scanTokens_spanned src
  refine ⟨hsp, ?_⟩
  obtain ⟨gaps, hlen, hrec⟩ := hsp.reconstruct
  refine ⟨gaps, hlen, ?_⟩
  rw [hrec]
  exact jsSlice_full src

/-- C4: the radix-literal claim against the code.  The coarse variant
scans the spec's example correctly, but its validity test reads one
character past the marker's successor, so the valid literal of the form
zero-x-one is rejected: it reports a hexadecimal-digit diagnostic and
emits a number token with lexeme consisting of just the prefix and `NaN`
payload, followed by a separate decimal token.  The fine variant supports
no `x` marker at all and scans the example as a decimal zero plus
unexpected-character errors. -/
theorem coarse_radix_lookahead_code_bug :
    (scanTokensC 0 ['0', 'x', '1', 'A']).map (fun s => (s.tokens, s.errors)) =
      some ([⟨CTokenType.number (JsNumValue.num (some 26)) NumberKind.hexadecimal false,
        ['0', 'x', '1', 'A'], 0⟩, ⟨CTokenType.eof, [], 0⟩], []) ∧
    (scanTokensC 0 ['0', 'x', '1']).map (fun s => (s.tokens, s.errors)) =
      some ([⟨CTokenType.number (JsNumValue.num none) NumberKind.hexadecimal false,
        ['0', 'x'], 0⟩,
        ⟨CTokenType.number (JsNumValue.num (some 1)) NumberKind.decimal false, ['1'], 0⟩,
        ⟨CTokenType.eof, [], 0⟩], [ScanError.hexadecimalDigitExpected]) ∧
    (scanTokens ['0', 'x', '1', 'A']).tokens =
      [⟨TokenType.number (some 0) NumberKind.decimal, ['0'], 0⟩,
       ⟨TokenType.number (some 1) NumberKind.decimal, ['1'], 0⟩,
       ⟨TokenType.eof, [], 0⟩] := by
  exact ⟨by decide, by decide, by decide⟩

/-- C5: on the spec's example (zero-b-two) the claim says no numeric
token and exactly one diagnostic; the code's error branch falls through
to the token emission.  The fine variant emits a number token with lexeme
`0` tagged binary and reports a second, unexpected-character diagnostic
for the unconsumed marker; the coarse variant emits a number token with
lexeme `0b` and `NaN` payload; both then scan the digit two as a decimal
token. -/
theorem radix_error_token_code_bug :
    ((scanTokens ['0', 'b', '2']).tokens =
      [⟨TokenType.number (some 0) NumberKind.binary, ['0'], 0⟩,
       ⟨TokenType.number (some 2) NumberKind.decimal, ['2'], 0⟩,
       ⟨TokenType.eof, [], 0⟩] ∧
     (scanTokens ['0', 'b', '2']).errors =
      [ScanError.binaryDigitExpected, ScanError.unexpectedCharacter (some 'b')]) ∧
    (scanTokensC 0 ['0', 'b', '2']).map (fun s => (s.tokens, s.errors)) =
      some ([⟨CTokenType.number (JsNumValue.num none) NumberKind.binary false,
        ['0', 'b'], 0⟩,
        ⟨CTokenType.number (JsNumValue.num (some 2)) NumberKind.decimal false, ['2'], 0⟩,
        ⟨CTokenType.eof, [], 0⟩], [ScanError.binaryDigitExpected]) := by
  exact ⟨⟨by decide, by decide⟩, by decide⟩

/-- C6 counterexample: the scanner treats every double quote as closing —
there is no escape handling.  On the input quote-backslash-quote the
claim (reading the final quote as escaped) predicts an unterminated
string error and no string token, but the scan emits a string token whose
payload is the backslash and reports no diagnostic. -/
theorem escaped_quote_closes_string_cex :
    (scanTokens ['"', '\\', '"']).tokens =
      [⟨TokenType.string ['\\'], ['"', '\\', '"'], 0⟩, ⟨TokenType.eof, [], 0⟩] ∧
    (scanTokens ['"', '\\', '"']).errors = [] := by
  exact ⟨by decide, by decide⟩

/-- C6 (amended): whenever the scanner opens a string literal at the
cursor and no further double quote (escaped or not — backslash is not
special) occurs in the input, the remainder of the scan emits no token at
all, reports exactly one unterminated-string diagnostic, and consumes the
input to its end. -/
theorem unterminated_string_recovery (s : ScanState TokenType) (fuel : Nat)
    (hq : charAt s.source s.current = some '"')
    (hno : '"' ∉ s.source.drop (s.current + 1)) :
    (scanLoopF (fuel + 1) { s with start := s.current }).tokens = s.tokens ∧
    (scanLoopF (fuel + 1) { s with start := s.current }).errors =
      s.errors ++ [ScanError.unterminatedString] ∧
    (scanLoopF (fuel + 1) { s with start := s.current }).current = s.source.length :=
  scanLoopF_unterminated s fuel hq hno

/-- Witness for C6 at the spec's unterminated-string example. -/
theorem unterminated_string_recovery_witness :
    (scanLoopF 4 { initState ['"', 'a', 'b', 'c'] with start := 0 }).tokens = [] ∧
    (scanLoopF 4 { initState ['"', 'a', 'b', 'c'] with start := 0 }).errors =
      [ScanError.unterminatedString] ∧
    (scanLoopF 4 { initState ['"', 'a', 'b', 'c'] with start := 0 }).current = 4 :=
  unterminated_string_recovery (initState ['"', 'a', 'b', 'c']) 3 (by decide) (by decide)

/-- C7 counterexample: a string literal with an embedded line terminator
carries the line of its closing quote, not of its opening quote: the
opening quote of the scanned input sits at index zero, before which no
line terminator occurs (line zero), yet the emitted string token's line
is one. -/
theorem string_token_line_cex :
    (scanTokens ['"', 'a', '\n', 'b', '"']).tokens =
      [⟨TokenType.string ['a', '\n', 'b'], ['"', 'a', '\n', 'b', '"'], 1⟩,
       ⟨TokenType.eof, [], 1⟩] ∧
    ((['"', 'a', '\n', 'b', '"'] : List Char).take 0).count '\n' = 0 := by
  exact ⟨by decide, by decide⟩

/-- C7 (amended): every emitted token's line field equals the number of
line terminators consumed before the END of the token's span — the line
on which the token's last character appears; for single-line tokens this
coincides with the first character's line, but a string literal with
embedded line terminators carries its closing quote's line. -/
theorem token_line_at_span_end :
    ∀ src : List Char, ∀ t ∈ (scanTokens src).tokens, ∃ b c, b ≤ c ∧ c ≤ src.length ∧
      t.lexeme = jsSlice src b c ∧ t.line = (src.take c).count '\n' := by
  intro src t ht
  obtain ⟨b, c, _, hbc, hce, hlex, hline⟩ := (scanTokens_spanned src).mem_spec ht
  exact ⟨b, c, hbc, hce, hlex, hline⟩

/-- Witness for C7 at a concrete one-token input. -/
theorem token_line_at_span_end_witness :
    ∃ b c, b ≤ c ∧ c ≤ (['1'] : List Char).length ∧
      (⟨TokenType.number (some 1) NumberKind.decimal, ['1'], 0⟩ : Tok TokenType).lexeme =
        jsSlice ['1'] b c ∧
      (⟨TokenType.number (some 1) NumberKind.decimal, ['1'], 0⟩ : Tok TokenType).line =
        ((['1'] : List Char).take c).count '\n' :=
  token_line_at_span_end ['1'] _ (by decide)

/-- C8 counterexample: a string token's lexeme INCLUDES the surrounding
double-quote delimiters (only the decoded payload excludes them), while
the claim says the lexeme excludes them. -/
theorem string_lexeme_includes_quotes_cex :
    (scanTokens ['"', 'a', '"']).tokens =
      [⟨TokenType.string ['a'], ['"', 'a', '"'], 0⟩, ⟨TokenType.eof, [], 0⟩] ∧
    (['"', 'a', '"'] : List Char) ≠ ['a'] := by
  exact ⟨by decide, by decide⟩

/-- C8 (amended): every emitted token's lexeme is the exact contiguous
substring of the source that produced it (including any radix marker,
decimal point and exponent marker it consumed), and a string token's
lexeme is its decoded payload surrounded by the two double-quote
delimiters. -/
theorem lexeme_exact_substring :
    ∀ src : List Char, (∀ t ∈ (scanTokens src).tokens, ∃ b c, b ≤ c ∧ c ≤ src.length ∧
        t.lexeme = jsSlice src b c) ∧
      ∀ t ∈ (scanTokens src).tokens, ∀ lit, t.type = TokenType.string lit →
        t.lexeme = '"' :: (lit ++ ['"']) := by
  intro src
  constructor
  · intro t ht
    obtain ⟨b, c, _, hbc, hce, hlex, _⟩ := (scanTokens_spanned src).mem_spec ht
    exact ⟨b, c, hbc, hce, hlex⟩
  · intro t ht lit hlit
    obtain ⟨hs, hc, hi⟩ := scanTokens_final src
    have hmem : t ∈ (scanLoopF src.length (initState src)).tokens ++
        [⟨TokenType.eof, [], (scanLoopF src.length (initState src)).line⟩] := ht
    rcases List.mem_append.mp hmem with h1 | h2
    · exact hi.str_lex t h1 lit hlit
    · rw [List.mem_singleton.mp h2] at hlit
      exact absurd hlit (fun hh => TokenType.noConfusion hh)

/-- Witness for C8 at the concrete quoted input. -/
theorem lexeme_exact_substring_witness :
    (∃ b c, b ≤ c ∧ c ≤ (['"', 'a', '"'] : List Char).length ∧
      (⟨TokenType.string ['a'], ['"', 'a', '"'], 0⟩ : Tok TokenType).lexeme =
        jsSlice ['"', 'a', '"'] b c) ∧
    (⟨TokenType.string ['a'], ['"', 'a', '"'], 0⟩ : Tok TokenType).lexeme =
      '"' :: (['a'] ++ ['"']) :=
  ⟨(lexeme_exact_substring ['"', 'a', '"']).1 _ (by decide),
   (lexeme_exact_substring ['"', 'a', '"']).2 _ (by decide) ['a'] rfl⟩

/-- C9: a trailing decimal point not followed by a digit.  The coarse
variant's `match` consumes the dot even though the digit lookahead fails,
producing a single number token whose lexeme includes the dot; the fine
variant leaves the dot unconsumed and scans it as the next (dot) token,
as the claim requires. -/
theorem coarse_trailing_dot_code_bug :
    (scanTokensC 0 ['1', '.']).map (fun s => (s.tokens, s.errors)) =
      some ([⟨CTokenType.number (JsNumValue.num (some 1)) NumberKind.decimal false,
        ['1', '.'], 0⟩, ⟨CTokenType.eof, [], 0⟩], []) ∧
    (scanTokens ['1', '.']).tokens =
      [⟨TokenType.number (some 1) NumberKind.decimal, ['1'], 0⟩,
       ⟨TokenType.dot, ['.'], 0⟩, ⟨TokenType.eof, [], 0⟩] := by
  exact ⟨by decide, by decide⟩

/-- C10: the line fields of the returned tokens are non-decreasing in
sequence order, and the last token's line (the end-of-input token's) is
an upper bound for every token's line. -/
theorem token_lines_monotone :
    ∀ src : List Char, List.Pairwise (fun t u => t.line ≤ u.line) (scanTokens src).tokens ∧
      ∀ t ∈ (scanTokens src).tokens, ∀ u, (scanTokens src).tokens.getLast? = some u →
        t.line ≤ u.line := by
  intro src
  have hsp := scanTokens_spanned src
  refine ⟨hsp.pairwise_line, ?_⟩
  intro t ht u hu
  have hlast : (scanTokens src).tokens.getLast? =
      some ⟨TokenType.eof, [], (scanLoopF src.length (initState src)).line⟩ := by
    show ((scanLoopF src.length (initState src)).tokens ++
      [(⟨TokenType.eof, [], (scanLoopF src.length (initState src)).line⟩ :
        Tok TokenType)]).getLast? = _
    rw [List.getLast?_concat]
  rw [hlast] at hu
  have hu2 := Option.some.inj hu
  subst hu2
  have hub := hsp.line_ub ht
  obtain ⟨hs, hc, hi⟩ := scanTokens_final src
  have h1 := hi.line_eq
  rw [hs, hc] at h1
  show t.line ≤ (scanLoopF src.length (initState src)).line
  rw [h1]
  exact hub

/-- Witness for C10 at a concrete one-token input. -/
theorem token_lines_monotone_witness :
    List.Pairwise (fun t u => t.line ≤ u.line) (scanTokens ['1']).tokens ∧
    (⟨TokenType.number (some 1) NumberKind.decimal, ['1'], 0⟩ : Tok TokenType).line ≤
      (⟨TokenType.eof, [], 0⟩ : Tok TokenType).line :=
  ⟨(token_lines_monotone ['1']).1,
   (token_lines_monotone ['1']).2 ⟨TokenType.number (some 1) NumberKind.decimal, ['1'], 0⟩
     (by decide) ⟨TokenType.eof, [], 0⟩ (by decide)⟩
